import Mathlib

set_option maxHeartbeats 1000000
set_option linter.unusedSectionVars false

/-!
Shallow embedding of the supersonic-zkproof polynomial-commitment core
(src/kzg.rs and src/supersonic_ipa.rs).

Groups are modelled by discrete logarithms.  Every Ristretto point this
program manipulates is a scalar multiple of the fixed base point
(`hash_to_point` literally multiplies the base point by a hash-derived
scalar), and every BLS12-381 G1/G2/GT element it manipulates is a power of
the respective generator, so a group element is represented by its scalar
exponent in a field `F`, point addition by `+`, scalar multiplication by
`*`, the group identity by `0`, and the bilinear pairing by multiplication
of the exponents.  Group-element equality corresponds exactly to equality
of the exponents, because the subgroups in question are cyclic of prime
order.

The external hash primitives are abstracted as function parameters, as the
spec treats the hash library as a trusted external primitive:
`hp : List Nat -> F` stands for `hash_to_point` on a byte string, and
`chal : F -> F -> F` stands for `hash_to_scalar` applied to the compressed
bytes of the two round commitments L and R (Ristretto point compression is
injective, so the round challenge is a function of the two points).
-/

/-- Little-endian byte encoding of a `usize` (8 bytes), as produced by
`i.to_le_bytes()` in `generate_g_vec`. -/
def leBytes8 (i : ℕ) : List ℕ :=
  [i % 256, i / 256 % 256, i / 256 ^ 2 % 256, i / 256 ^ 3 % 256,
   i / 256 ^ 4 % 256, i / 256 ^ 5 % 256, i / 256 ^ 6 % 256, i / 256 ^ 7 % 256]

/-- Byte string hashed for the i-th generator: the single tag byte `b"g"`
(ASCII 103) followed by the 8 little-endian bytes of `i`
(supersonic_ipa.rs, `generate_g_vec`, lines 22-29). -/
def gData (i : ℕ) : List ℕ := 103 :: leBytes8 i

/-- Fuel-bounded power-of-two test; the fuel only has to exceed the number
of halvings, and `isPow2` supplies fuel `n`. -/
def isPow2Aux : ℕ → ℕ → Bool
  | 0, _ => false
  | fuel + 1, n =>
    if n = 1 then true
    else if n = 0 then false
    else if n % 2 = 1 then false
    else isPow2Aux fuel (n / 2)

/-- Rust `usize::is_power_of_two` (true exactly on 1, 2, 4, 8, ...). -/
def isPow2 (n : ℕ) : Bool := isPow2Aux n n

variable {F : Type} [Field F] [DecidableEq F]

/-- Polynomial evaluation, low coefficient first: models the Horner-style
loop of `eval_poly_scalar` (supersonic_ipa.rs lines 37-45) and the arkworks
`evaluate` used by kzg.rs, both of which compute the sum of
`coeffs[i] * x^i`. -/
def evalPoly (coeffs : List F) (x : F) : F :=
  match coeffs with
  | [] => 0
  | c :: t => c + x * evalPoly t x

/-- Evaluation of the tail `num.drop k`; `hornerFrom num z k` is the value
the synthetic-division loops carry after having consumed the coefficients
above index `k`. -/
def hornerFrom (num : List F) (z : F) (k : ℕ) : F := evalPoly (num.drop k) z

/-- `generate_g_vec` (supersonic_ipa.rs lines 22-29): the i-th base point is
`hash_to_point` of the tag byte `b"g"` followed by the bytes of `i`.  In the
discrete-log representation the point is the scalar `hp (gData i)`. -/
def generate_g_vec (hp : List ℕ → F) (n : ℕ) : List F :=
  (List.range n).map fun i => hp (gData i)

/-- `commit` (supersonic_ipa.rs lines 32-34): the Pedersen-style sum of
`g_i * coeffs_i`; the zip truncates at the shorter list, and no length
check of any kind is performed. -/
def commit (coeffs g_vec : List F) : F :=
  ((coeffs.zip g_vec).map fun p => p.2 * p.1).sum

/-- `RistrettoPoint::multiscalar_mul`: the weighted sum of points by
scalars. -/
def multiscalar_mul (scalars points : List F) : F :=
  ((scalars.zip points).map fun p => p.1 * p.2).sum

/-- `generate_evaluation_vector` (supersonic_ipa.rs lines 70-76): the vector
`(1, x, x^2, ..., x^(n-1))`, built in the source by repeated
multiplication. -/
def generate_evaluation_vector (x : F) (n : ℕ) : List F :=
  (List.range n).map fun i => x ^ i

/-- `IpaProof` (supersonic_ipa.rs lines 62-67). -/
structure IpaProof (F : Type) where
  l_vec : List F
  r_vec : List F
  a_final : F
  b_final : F

/-- `EvaluationProof` (supersonic_ipa.rs lines 56-59). -/
structure EvaluationProof (F : Type) where
  witness : F
  ipa_proof : IpaProof F

/-- `SupersonicProof` (supersonic_ipa.rs lines 48-53). -/
structure SupersonicProof (F : Type) where
  commitment : F
  evaluation_proof : EvaluationProof F
  point : F
  value : F

/-- The `while a_vec.len() > 1` folding loop of `create_ipa_proof`
(supersonic_ipa.rs lines 114-147), with a structural fuel so the kernel can
evaluate it; the caller passes fuel `n`, which strictly exceeds the `log2 n`
iterations the loop performs.  Returns `(l_vec, r_vec, a_vec[0],
b_vec[0])`. -/
def ipaRounds (chal : F → F → F) :
    ℕ → List F → List F → List F → List F → List F × List F × F × F
  | 0, a, b, _, _ => ([], [], a.getD 0 0, b.getD 0 0)
  | fuel + 1, a, b, g, h =>
    if a.length ≤ 1 then ([], [], a.getD 0 0, b.getD 0 0)
    else
      let mid := a.length / 2
      let lC := multiscalar_mul (a.take mid ++ b.drop mid) (g.drop mid ++ h.take mid)
      let rC := multiscalar_mul (a.drop mid ++ b.take mid) (g.take mid ++ h.drop mid)
      let c := chal lC rC
      let a2 := ((a.take mid).zip (a.drop mid)).map fun p => p.1 + c * p.2
      let b2 := ((b.take mid).zip (b.drop mid)).map fun p => p.1 + c * p.2
      let g2 := ((g.take mid).zip (g.drop mid)).map fun p => p.1 + p.2 * c
      let h2 := ((h.take mid).zip (h.drop mid)).map fun p => p.1 + p.2 * c
      let rest := ipaRounds chal fuel a2 b2 g2 h2
      (lC :: rest.1, rC :: rest.2.1, rest.2.2.1, rest.2.2.2)

/-- `create_ipa_proof` (supersonic_ipa.rs lines 99-155).  The
`assert!(n.is_power_of_two())` panic is modelled as `none`.  The additional
base points `h_vec` are `generate_g_vec(n)` — the same derivation as the
commitment basis.  The `y` argument is unused by the source as well. -/
def create_ipa_proof (hp : List ℕ → F) (chal : F → F → F)
    (coeffs g_vec : List F) (x _y : F) : Option (IpaProof F) :=
  let n := coeffs.length
  if isPow2 n then
    let r := ipaRounds chal n coeffs (generate_evaluation_vector x n) g_vec
      (generate_g_vec hp n)
    some ⟨r.1, r.2.1, r.2.2.1, r.2.2.2⟩
  else none

/-- `create_kate_witness` (supersonic_ipa.rs lines 79-96): synthetic
division of `coeffs` by `(X - x)` from the top coefficient down; the
`assert!(remainder == *y)` and the panics on an empty coefficient vector or
a too-short generator slice are modelled as `none`. -/
def create_kate_witness (coeffs : List F) (x y : F) (g_vec : List F) : Option F :=
  match coeffs with
  | [] => none
  | _ :: _ =>
    let m := coeffs.length - 1
    let qr := (coeffs.take m).foldr (fun c pr => (pr.2 :: pr.1, c + pr.2 * x))
      (([] : List F), coeffs.getD m 0)
    if qr.2 = y then
      if qr.1.length ≤ g_vec.length then some (commit qr.1 (g_vec.take qr.1.length))
      else none
    else none

/-- `supersonic_commit` (supersonic_ipa.rs lines 158-162). -/
def supersonic_commit (hp : List ℕ → F) (coeffs : List F) : F × List F :=
  let g_vec := generate_g_vec hp coeffs.length
  (commit coeffs g_vec, g_vec)

/-- `supersonic_create_proof` (supersonic_ipa.rs lines 165-186). -/
def supersonic_create_proof (hp : List ℕ → F) (chal : F → F → F)
    (coeffs : List F) (x : F) : Option (SupersonicProof F) :=
  let cg := supersonic_commit hp coeffs
  let y := evalPoly coeffs x
  (create_kate_witness coeffs x y cg.2).bind fun w =>
    (create_ipa_proof hp chal coeffs cg.2 x y).bind fun ipa =>
      some ⟨cg.1, ⟨w, ipa⟩, x, y⟩

/-- `verify_kate_witness` (supersonic_ipa.rs lines 189-198): checks
`witness + g_vec[0] * y == commitment`; indexing an empty generator vector
panics (`none`). -/
def verify_kate_witness (commitment witness : F) (_x y : F) (g_vec : List F) :
    Option Bool :=
  match g_vec with
  | [] => none
  | g0 :: _ => some (decide (witness + g0 * y = commitment))

/-- The challenge-driven basis refold of `verify_ipa_proof`
(supersonic_ipa.rs lines 224-235); each challenge halves both reconstructed
vectors, splitting at half the length of the first. -/
def reconstructGens (challenges g h : List F) : List F × List F :=
  challenges.foldl
    (fun gh c =>
      let mid := gh.1.length / 2
      (((gh.1.take mid).zip (gh.1.drop mid)).map fun p => p.1 + p.2 * c,
       ((gh.2.take mid).zip (gh.2.drop mid)).map fun p => p.1 + p.2 * c))
    (g, h)

/-- `verify_ipa_proof` (supersonic_ipa.rs lines 201-247).  The
`assert!(n.is_power_of_two())` and the `g_reconstructed[0]` /
`h_reconstructed[0]` index panics are modelled as `none`.  The final check
is `a_final * g_final + b_final * h_final == commitment`, together with
`a_final * b_final == y`; the proof's L and R points enter only through the
challenge hash. -/
def verify_ipa_proof (hp : List ℕ → F) (chal : F → F → F)
    (commitment : F) (g_vec : List F) (_x y : F) (proof : IpaProof F) :
    Option Bool :=
  let n := g_vec.length
  if isPow2 n then
    let challenges := (proof.l_vec.zip proof.r_vec).map fun p => chal p.1 p.2
    let gh := reconstructGens challenges g_vec (generate_g_vec hp n)
    match gh.1, gh.2 with
    | g0 :: _, h0 :: _ =>
      some (decide (multiscalar_mul [proof.a_final, proof.b_final] [g0, h0] = commitment)
        && decide (proof.a_final * proof.b_final = y))
    | _, _ => none
  else none

/-- `supersonic_verify_proof` (supersonic_ipa.rs lines 250-261): both checks
run against `generate_g_vec(8)`, whatever the proof contains. -/
def supersonic_verify_proof (hp : List ℕ → F) (chal : F → F → F)
    (proof : SupersonicProof F) : Option Bool :=
  let g_vec := generate_g_vec hp 8
  (verify_kate_witness proof.commitment proof.evaluation_proof.witness proof.point
      proof.value g_vec).bind fun kate =>
    (verify_ipa_proof hp chal proof.commitment g_vec proof.point proof.value
        proof.evaluation_proof.ipa_proof).bind fun ipa =>
      some (kate && ipa)

/-- `KZGSetup` (kzg.rs lines 9-13): the struct as written, with the secret
scalar `s` stored as a public field. -/
structure KZGSetup (F : Type) where
  powers_of_g : List F
  powers_of_h : List F
  s : F

/-- The `for _ in 0..=degree` loop of `kzg_trusted_setup` (kzg.rs lines
21-26): push the accumulator, then multiply it by `s`. -/
def powersLoop (s : F) : ℕ → F → List F
  | 0, _ => []
  | k + 1, cur => cur :: powersLoop s k (cur * s)

/-- `kzg_trusted_setup` (kzg.rs lines 15-28); the sampled secret `s` is an
explicit argument standing for `Fr::rand(rng)`, and in the discrete-log
representation both generators have exponent 1. -/
def kzg_trusted_setup (degree : ℕ) (s : F) : KZGSetup F :=
  ⟨powersLoop s (degree + 1) 1, powersLoop s (degree + 1) 1, s⟩

/-- `kzg_commit` (kzg.rs lines 30-34): sum of `powers_of_g[i] * coeffs[i]`;
the zip silently truncates whichever list is longer. -/
def kzg_commit (coeffs : List F) (setup : KZGSetup F) : F :=
  ((coeffs.zip setup.powers_of_g).map fun p => p.2 * p.1).sum

/-- Arkworks `DensePolynomial::from_coefficients_vec` normalisation: strip
trailing zero coefficients. -/
def stripTrailingZeros (l : List F) : List F :=
  (l.reverse.dropWhile fun c => decide (c = 0)).reverse

/-- Arkworks `degree()` on a normalised coefficient vector: length minus
one, and 0 for the zero polynomial (empty vector). -/
def polyDegree (l : List F) : ℕ := l.length - 1

/-- One iteration of the outer loop of `naive_poly_division` (kzg.rs lines
44-50): divide the current top coefficient by the divisor's leading
coefficient, record it in the quotient, and subtract the multiple of the
divisor from the remainder. -/
def npdStep (divisor : List F) (ddeg : ℕ) (lead : F) (qr : List F × List F) (i : ℕ) :
    List F × List F :=
  let coeff := qr.2.getD i 0 / lead
  (qr.1.set (i - ddeg) coeff,
   (List.range (ddeg + 1)).foldl
     (fun r j => r.set (i - j) (r.getD (i - j) 0 - coeff * divisor.getD (ddeg - j) 0))
     qr.2)

/-- `naive_poly_division` (kzg.rs lines 36-55): long division from index
`numerator.degree()` down to `divisor.degree()`, then normalisation of both
results. -/
def naive_poly_division (numerator divisor : List F) : List F × List F :=
  let ndeg := polyDegree numerator
  let ddeg := polyDegree divisor
  let lead := divisor.getD ddeg 0
  let res := ((List.range' ddeg (ndeg + 1 - ddeg)).reverse).foldl
    (npdStep divisor ddeg lead) (List.replicate numerator.length 0, numerator)
  (stripTrailingZeros res.1, stripTrailingZeros res.2)

/-- The numerator `f(X) - f(z)` built by `kzg_create_proof` (kzg.rs lines
58-63): subtract the evaluation from the constant coefficient when the
vector is nonempty, then normalise. -/
def kzgNumerator (coeffs : List F) (z : F) : List F :=
  stripTrailingZeros
    (match coeffs with
     | [] => []
     | c :: t => (c - evalPoly coeffs z) :: t)

/-- `kzg_create_proof` (kzg.rs lines 57-67): commit the quotient of the
division by `X - z`; the remainder is bound to `_r` and discarded. -/
def kzg_create_proof (coeffs : List F) (z : F) (setup : KZGSetup F) : F :=
  kzg_commit (naive_poly_division (kzgNumerator coeffs z) (stripTrailingZeros [-z, 1])).1
    setup

/-- `kzg_verify` (kzg.rs lines 69-85): the pairing equation
`e(C - y*G1, H) == e(W, s*H - z*H)` in discrete-log form, where `H` is
`powers_of_h[0]` and `s*H` is `powers_of_h[1]`; indexing panics (`none`)
when the SRS holds fewer than two G2 powers. -/
def kzg_verify (commitment : F) (z y : F) (proof : F) (setup : KZGSetup F) :
    Option Bool :=
  match setup.powers_of_h with
  | h0 :: sg2 :: _ =>
    some (decide ((commitment - 1 * y) * h0 = proof * (sg2 - h0 * z)))
  | _ => none

/-- Modelled from the spec: the canonical IPA folding equation of spec
section 4.2, `C + Σ (c_i⁻¹ · L_i + c_i · R_i) = a_final · G_final +
b_final · H_final`, which the source's `verify_ipa_proof` does not check
(it omits the L/R folding of the commitment).  Stated here only to be
compared with the code's check. -/
def canonicalFoldingEquation (commitment : F) (l_vec r_vec challenges : List F)
    (a_final b_final gFinal hFinal : F) : Prop :=
  commitment + ((challenges.zip (l_vec.zip r_vec)).map
    fun p => p.1⁻¹ * p.2.1 + p.1 * p.2.2).sum = a_final * gFinal + b_final * hFinal

instance : Fact (Nat.Prime 101) := ⟨by norm_num⟩

/-- Concrete stand-in for `hash_to_point` in closed evaluations: reads the
second byte of the hashed data (which for `gData i` with `i < 256` is `i`)
and adds one, so the derived generators are the nonzero scalars 1, 2, 3,
.... -/
def hpDemo : List ℕ → ZMod 101 := fun l => ((l.getD 1 0 : ℕ) : ZMod 101) + 1

/-- Concrete stand-in for the Fiat-Shamir challenge hash in closed
evaluations: the constant challenge 2. -/
def chalDemo : ZMod 101 → ZMod 101 → ZMod 101 := fun _ _ => 2

/-- A second hash stand-in that agrees with `hpDemo` on the generator
inputs `gData 0 .. gData 7` but differs everywhere above, used to witness
that `supersonic_verify_proof` only ever consumes the first 8 derived
generators. -/
def hpDemo2 : List ℕ → ZMod 101 := fun l =>
  if l.getD 1 0 < 8 then ((l.getD 1 0 : ℕ) : ZMod 101) + 1 else 0

/-! Basic facts about the embedded primitives. -/

@[simp]
theorem evalPoly_nil (x : F) : evalPoly ([] : List F) x = 0 := rfl

@[simp]
theorem evalPoly_cons (c : F) (t : List F) (x : F) :
    evalPoly (c :: t) x = c + x * evalPoly t x := rfl

theorem evalPoly_eq_zero_of_all_zero {l : List F} (x : F) (h : ∀ c ∈ l, c = 0) :
    evalPoly l x = 0 := by
  induction l with
  | nil => rfl
  | cons c t ih =>
    simp only [evalPoly_cons, h c (List.mem_cons_self c t),
      ih fun a ha => h a (List.mem_cons_of_mem c ha), mul_zero, add_zero]

theorem evalPoly_append (l t : List F) (x : F) :
    evalPoly (l ++ t) x = evalPoly l x + x ^ l.length * evalPoly t x := by
  induction l with
  | nil => simp
  | cons c l' ih => simp [ih, pow_succ]; ring

theorem evalPoly_eq_sum_getD (l : List F) (x : F) :
    evalPoly l x = ∑ j ∈ Finset.range l.length, l.getD j 0 * x ^ j := by
  induction l with
  | nil => simp
  | cons c t ih =>
    rw [List.length_cons, Finset.sum_range_succ' fun j => (c :: t).getD j 0 * x ^ j]
    simp only [evalPoly_cons, List.getD_cons_succ, List.getD_cons_zero, pow_zero, mul_one, ih,
      Finset.mul_sum]
    rw [add_comm]
    congr 1
    refine Finset.sum_congr rfl fun j _ => ?_
    ring

@[simp]
theorem hornerFrom_zero (num : List F) (z : F) : hornerFrom num z 0 = evalPoly num z := by
  simp [hornerFrom]

theorem hornerFrom_getD (num : List F) (z : F) (k : ℕ) :
    hornerFrom num z k = num.getD k 0 + z * hornerFrom num z (k + 1) := by
  by_cases hk : k < num.length
  · unfold hornerFrom
    rw [List.drop_eq_getElem_cons hk, evalPoly_cons, List.getD_eq_getElem num 0 hk]
  · push_neg at hk
    unfold hornerFrom
    rw [List.drop_eq_nil_of_le hk, List.drop_eq_nil_of_le (hk.trans (Nat.le_succ k)),
      List.getD_eq_default num 0 hk]
    simp

theorem hornerFrom_last (num : List F) (z : F) {m : ℕ} (h : num.length = m + 1) :
    hornerFrom num z m = num.getD m 0 := by
  have hm : m < num.length := by omega
  unfold hornerFrom
  rw [List.drop_eq_getElem_cons hm, List.drop_eq_nil_of_le (by omega),
    List.getD_eq_getElem num 0 hm]
  simp

@[simp]
theorem length_generate_g_vec (hp : List ℕ → F) (n : ℕ) :
    (generate_g_vec hp n).length = n := by
  simp [generate_g_vec]

theorem generate_g_vec_congr {hp hp' : List ℕ → F} (n : ℕ)
    (h : ∀ i, i < n → hp (gData i) = hp' (gData i)) :
    generate_g_vec hp n = generate_g_vec hp' n :=
  List.map_congr_left fun i hi => h i (List.mem_range.mp hi)

theorem generate_g_vec_succ (hp : List ℕ → F) (m : ℕ) :
    generate_g_vec hp (m + 1)
      = hp (gData 0) :: (List.range m).map fun i => hp (gData (i + 1)) := by
  simp [generate_g_vec, List.range_succ_eq_map, List.map_map, Function.comp]

theorem isPow2Aux_two_pow : ∀ k fuel, k < fuel → isPow2Aux fuel (2 ^ k) = true := by
  intro k
  induction k with
  | zero => intro fuel hf; match fuel, hf with
    | fuel + 1, _ => simp [isPow2Aux]
  | succ k ih =>
    intro fuel hf
    match fuel, hf with
    | fuel + 1, hf =>
      have h2 : (2 : ℕ) ^ (k + 1) = 2 * 2 ^ k := by rw [pow_succ]; ring
      have hpos : 0 < (2 : ℕ) ^ k := Nat.pos_pow_of_pos _ (by norm_num)
      have h1 : (2 : ℕ) ^ (k + 1) ≠ 1 := by omega
      have h0 : (2 : ℕ) ^ (k + 1) ≠ 0 := by omega
      have hmod : ¬(2 ^ (k + 1) % 2 = 1) := by omega
      have hdiv : 2 ^ (k + 1) / 2 = 2 ^ k := by omega
      simp only [isPow2Aux]
      rw [if_neg h1, if_neg h0, if_neg hmod, hdiv]
      exact ih fuel (by omega)

theorem isPow2_two_pow (k : ℕ) : isPow2 (2 ^ k) = true :=
  isPow2Aux_two_pow k (2 ^ k) (Nat.lt_two_pow k)

theorem powersLoop_eq_map (s : F) : ∀ (n : ℕ) (a : F),
    powersLoop s n a = (List.range n).map fun i => a * s ^ i := by
  intro n
  induction n with
  | zero => intro a; rfl
  | succ n ih =>
    intro a
    rw [powersLoop, ih, List.range_succ_eq_map]
    simp only [List.map_cons, List.map_map, pow_zero, mul_one, List.cons.injEq, true_and]
    refine List.map_congr_left fun i _ => ?_
    simp [Function.comp, pow_succ]
    ring

theorem kzg_setup_powers_g (d : ℕ) (s : F) :
    (kzg_trusted_setup d s).powers_of_g = (List.range (d + 1)).map fun i => s ^ i := by
  rw [kzg_trusted_setup, powersLoop_eq_map]
  simp

theorem kzg_setup_powers_h (d : ℕ) (s : F) :
    (kzg_trusted_setup d s).powers_of_h = (List.range (d + 1)).map fun i => s ^ i := by
  rw [kzg_trusted_setup, powersLoop_eq_map]
  simp

/-! Multiscalar sums as indexed sums, and normalisation facts. -/

theorem zip_mul_sum (c g : List F) :
    ((c.zip g).map fun p => p.2 * p.1).sum
      = ∑ i ∈ Finset.range (min c.length g.length), g.getD i 0 * c.getD i 0 := by
  induction c generalizing g with
  | nil => simp
  | cons c0 t ih =>
    cases g with
    | nil => simp
    | cons g0 gt =>
      simp only [List.zip_cons_cons, List.map_cons, List.sum_cons, List.length_cons,
        Nat.succ_min_succ]
      rw [Finset.sum_range_succ' fun i => (g0 :: gt).getD i 0 * (c0 :: t).getD i 0]
      simp only [List.getD_cons_succ, List.getD_cons_zero]
      rw [ih gt, add_comm]

theorem commit_eq_sum (coeffs g_vec : List F) :
    commit coeffs g_vec
      = ∑ i ∈ Finset.range (min coeffs.length g_vec.length),
          g_vec.getD i 0 * coeffs.getD i 0 :=
  zip_mul_sum coeffs g_vec

theorem zip_powers_sum (s : F) (c : List F) : ∀ (n : ℕ) (a : F),
    ((c.zip ((List.range n).map fun i => a * s ^ i)).map fun p => p.2 * p.1).sum
      = a * evalPoly (c.take n) s := by
  induction c with
  | nil => intro n a; simp
  | cons c0 t ih =>
    intro n a
    cases n with
    | zero => simp
    | succ n =>
      rw [List.range_succ_eq_map, List.map_cons, List.map_map, List.zip_cons_cons,
        List.map_cons, List.sum_cons]
      have harg : (List.range n).map ((fun i => a * s ^ i) ∘ Nat.succ)
          = (List.range n).map fun i => (a * s) * s ^ i := by
        refine List.map_congr_left fun i _ => ?_
        simp [Function.comp, pow_succ]
        ring
      rw [harg, ih n (a * s), List.take_succ_cons, evalPoly_cons]
      ring

theorem kzg_commit_trusted (coeffs : List F) (d : ℕ) (s : F) :
    kzg_commit coeffs (kzg_trusted_setup d s) = evalPoly (coeffs.take (d + 1)) s := by
  rw [kzg_commit, kzg_setup_powers_g]
  have h := zip_powers_sum s coeffs (d + 1) 1
  simp only [one_mul] at h
  exact h

theorem stripTrailingZeros_decomp (l : List F) :
    ∃ t, l = stripTrailingZeros l ++ t ∧ ∀ c ∈ t, c = 0 := by
  refine ⟨(l.reverse.takeWhile fun c => decide (c = 0)).reverse, ?_, ?_⟩
  · rw [stripTrailingZeros, ← List.reverse_append, List.takeWhile_append_dropWhile,
      List.reverse_reverse]
  · intro c hc
    rw [List.mem_reverse] at hc
    have := List.mem_takeWhile_imp hc
    exact of_decide_eq_true this

theorem evalPoly_strip (l : List F) (x : F) :
    evalPoly (stripTrailingZeros l) x = evalPoly l x := by
  obtain ⟨t, hl, ht⟩ := stripTrailingZeros_decomp l
  conv_rhs => rw [hl]
  rw [evalPoly_append, evalPoly_eq_zero_of_all_zero x ht, mul_zero, add_zero]

theorem stripTrailingZeros_eq_nil {l : List F} (h : ∀ c ∈ l, c = 0) :
    stripTrailingZeros l = [] := by
  rw [stripTrailingZeros, List.reverse_eq_nil_iff, List.dropWhile_eq_nil_iff]
  intro x hx
  exact decide_eq_true (h x (List.mem_reverse.mp hx))

theorem length_stripTrailingZeros_le (l : List F) :
    (stripTrailingZeros l).length ≤ l.length := by
  rw [stripTrailingZeros, List.length_reverse]
  calc (l.reverse.dropWhile fun c => decide (c = 0)).length
      ≤ l.reverse.length := (List.dropWhile_sublist _).length_le
    _ = l.length := List.length_reverse l

/-! The synthetic-division invariant for `naive_poly_division` with the
linear divisor `X - z` (coefficients `[-z, 1]`), which is the only divisor
`kzg_create_proof` ever passes. -/

theorem getD_set_self (l : List F) (i : ℕ) (a : F) (h : i < l.length) :
    (l.set i a).getD i 0 = a := by
  rw [List.getD_eq_getElem?_getD, List.getElem?_set_eq_of_lt a h]
  rfl

theorem getD_set_ne (l : List F) (i j : ℕ) (a : F) (h : i ≠ j) :
    (l.set i a).getD j 0 = l.getD j 0 := by
  rw [List.getD_eq_getElem?_getD, List.getElem?_set_ne h, ← List.getD_eq_getElem?_getD]

theorem npdStep_dvz (z : F) (q r : List F) (i : ℕ) :
    npdStep [-z, 1] 1 1 (q, r) i
      = (q.set (i - 1) (r.getD i 0),
         (r.set i 0).set (i - 1) ((r.set i 0).getD (i - 1) 0 + r.getD i 0 * z)) := by
  have hrange : List.range 2 = [0, 1] := rfl
  simp only [npdStep, hrange, List.foldl_cons, List.foldl_nil, div_one]
  have h1 : ([-z, 1] : List F).getD (1 - 0) 0 = 1 := rfl
  have h0 : ([-z, 1] : List F).getD (1 - 1) 0 = -z := rfl
  rw [h1, h0]
  simp only [Nat.sub_zero, mul_one, sub_self, mul_neg, sub_neg_eq_add]

/-- The state of the division loop after all indices above `i` have been
processed: the quotient already holds the Horner values above `i`, the
remainder still holds the original coefficients below `i`, the Horner
accumulator at `i`, and zeros above. -/
def npdInv (num : List F) (z : F) (i : ℕ) (st : List F × List F) : Prop :=
  st.1.length = num.length ∧ st.2.length = num.length ∧
    (∀ j, st.1.getD j 0
      = if i ≤ j ∧ j + 1 < num.length then hornerFrom num z (j + 1) else 0) ∧
    (∀ j, st.2.getD j 0
      = if j < i then num.getD j 0 else if j = i then hornerFrom num z i else 0)

theorem npdInv_step (num : List F) (z : F) (i : ℕ) (st : List F × List F)
    (hi : i + 1 ≤ num.length - 1) (h : npdInv num z (i + 1) st) :
    npdInv num z i (npdStep [-z, 1] 1 1 st (i + 1)) := by
  obtain ⟨q, r⟩ := st
  obtain ⟨hq, hr, hqf, hrf⟩ := h
  have hq2 : q.length = num.length := hq
  have hr2 : r.length = num.length := hr
  have hn : i + 2 ≤ num.length := by omega
  rw [npdStep_dvz]
  have hri1 : r.getD (i + 1) 0 = hornerFrom num z (i + 1) := by
    rw [hrf (i + 1)]
    rw [if_neg (by omega), if_pos rfl]
  have hisub : i + 1 - 1 = i := by omega
  refine ⟨by simp [hq], by simp [hr], ?_, ?_⟩
  · intro j
    rw [hisub, hri1]
    by_cases hji : j = i
    · subst hji
      rw [getD_set_self _ _ _ (by rw [hq2]; omega : j < q.length)]
      rw [if_pos ⟨le_refl j, by omega⟩]
    · rw [getD_set_ne _ _ _ _ fun hc => hji hc.symm, hqf j]
      by_cases h1 : i ≤ j ∧ j + 1 < num.length
      · rw [if_pos h1, if_pos ⟨by omega, h1.2⟩]
      · rw [if_neg h1, if_neg fun hc => h1 ⟨by omega, hc.2⟩]
  · intro j
    rw [hisub]
    have hset0 : (r.set (i + 1) 0).getD i 0 = num.getD i 0 := by
      rw [getD_set_ne _ _ _ _ (by omega), hrf i, if_pos (by omega)]
    rw [hset0]
    have hval : num.getD i 0 + hornerFrom num z (i + 1) * z = hornerFrom num z i := by
      rw [hornerFrom_getD num z i]
      ring
    by_cases hji : j = i
    · subst hji
      rw [hri1, getD_set_self _ _ _
        (by rw [List.length_set, hr2]; omega : j < (r.set (j + 1) 0).length), hval]
      rw [if_neg (by omega), if_pos rfl]
    · rw [getD_set_ne _ _ _ _ fun hc => hji hc.symm]
      by_cases hji1 : j = i + 1
      · subst hji1
        rw [getD_set_self _ _ _ (by rw [hr2]; omega : i + 1 < r.length)]
        rw [if_neg (by omega), if_neg (by omega)]
      · rw [getD_set_ne _ _ _ _ fun hc => hji1 hc.symm, hrf j]
        by_cases h1 : j < i
        · rw [if_pos (by omega), if_pos h1]
        · rw [if_neg (by omega), if_neg (by omega), if_neg h1, if_neg (by omega)]

theorem npdInv_fold (num : List F) (z : F) : ∀ (i : ℕ) (st : List F × List F),
    i ≤ num.length - 1 → npdInv num z i st →
    npdInv num z 0 (((List.range' 1 i).reverse).foldl (npdStep [-z, 1] 1 1) st) := by
  intro i
  induction i with
  | zero => intro st _ h; simpa using h
  | succ i ih =>
    intro st hle h
    rw [List.range'_concat, List.reverse_concat', List.foldl_cons]
    have h11 : 1 + 1 * i = i + 1 := by omega
    rw [h11]
    exact ih _ (by omega) (npdInv_step num z i st hle h)

theorem npdInv_init (num : List F) (z : F) :
    npdInv num z (num.length - 1) (List.replicate num.length 0, num) := by
  refine ⟨by simp, rfl, ?_, ?_⟩
  · intro j
    rw [if_neg (by omega : ¬(num.length - 1 ≤ j ∧ j + 1 < num.length))]
    by_cases hj : j < num.length
    · rw [List.getD_eq_getElem _ _ (by simpa using hj), List.getElem_replicate]
    · rw [List.getD_eq_default _ _ (by simpa using not_lt.mp hj)]
  · intro j
    by_cases h1 : j < num.length - 1
    · rw [if_pos h1]
    · rw [if_neg h1]
      by_cases h2 : j = num.length - 1
      · rw [if_pos h2, h2]
        rcases eq_or_ne num.length 0 with hn | hn
        · have hnil : num = [] := List.length_eq_zero.mp hn
          subst hnil
          simp [hornerFrom]
        · obtain ⟨m, hm⟩ : ∃ m, num.length = m + 1 := ⟨num.length - 1, by omega⟩
          rw [hm]
          simp only [Nat.add_sub_cancel]
          exact (hornerFrom_last num z hm).symm
      · rw [if_neg h2, List.getD_eq_default _ _ (by show num.length ≤ j; omega)]

/-! Consequences of the invariant: the division by `X - z` produces the
Horner quotient, and a remainder that normalises to the zero polynomial
whenever `z` is a root of the numerator. -/

theorem strip_divisor (z : F) : stripTrailingZeros [-z, 1] = [-z, 1] := by
  have h : (decide ((1 : F) = 0)) = false := decide_eq_false one_ne_zero
  simp [stripTrailingZeros, List.dropWhile_cons, h]

theorem naive_poly_division_dvz (num : List F) (z : F) :
    naive_poly_division num [-z, 1]
      = (stripTrailingZeros (((List.range' 1 (num.length - 1)).reverse).foldl
          (npdStep [-z, 1] 1 1) (List.replicate num.length 0, num)).1,
         stripTrailingZeros (((List.range' 1 (num.length - 1)).reverse).foldl
          (npdStep [-z, 1] 1 1) (List.replicate num.length 0, num)).2) := rfl

theorem npd_remainder_zero (num : List F) (z : F) (h : evalPoly num z = 0) :
    (naive_poly_division num [-z, 1]).2 = [] := by
  rw [naive_poly_division_dvz]
  have hinv := npdInv_fold num z (num.length - 1) _ (le_refl _) (npdInv_init num z)
  apply stripTrailingZeros_eq_nil
  intro c hc
  obtain ⟨k, hk, hget⟩ := List.mem_iff_getElem.mp hc
  have hkd := hinv.2.2.2 k
  rw [List.getD_eq_getElem _ _ hk] at hkd
  rw [← hget, hkd]
  by_cases hk0 : k = 0
  · subst hk0
    rw [if_neg (by omega), if_pos rfl, hornerFrom_zero, h]
  · rw [if_neg (by omega), if_neg hk0]

theorem npd_quotient_eval (num : List F) (z s : F) :
    evalPoly (naive_poly_division num [-z, 1]).1 s
      = ∑ j ∈ Finset.range (num.length - 1), hornerFrom num z (j + 1) * s ^ j := by
  rw [naive_poly_division_dvz]
  have hinv := npdInv_fold num z (num.length - 1) _ (le_refl _) (npdInv_init num z)
  rw [evalPoly_strip, evalPoly_eq_sum_getD, hinv.1]
  trans (∑ j ∈ Finset.range num.length,
    (if j + 1 < num.length then hornerFrom num z (j + 1) else 0) * s ^ j)
  · refine Finset.sum_congr rfl fun j _ => ?_
    rw [hinv.2.2.1 j]
    congr 1
    simp
  · rcases Nat.eq_zero_or_pos num.length with h0 | hpos
    · rw [h0]
      simp
    · obtain ⟨m, hm⟩ : ∃ m, num.length = m + 1 := ⟨num.length - 1, by omega⟩
      rw [hm]
      simp only [Nat.add_sub_cancel]
      rw [Finset.sum_range_succ, if_neg (by omega), zero_mul, add_zero]
      refine Finset.sum_congr rfl fun j hj => ?_
      have hjm := Finset.mem_range.mp hj
      rw [if_pos (by omega)]

theorem horner_identity (num : List F) (z s : F) :
    (s - z) * ∑ j ∈ Finset.range (num.length - 1), hornerFrom num z (j + 1) * s ^ j
      = evalPoly num s - evalPoly num z := by
  rcases Nat.eq_zero_or_pos num.length with h0 | hpos
  · have hnil : num = [] := List.length_eq_zero.mp h0
    subst hnil
    simp
  · obtain ⟨m, hm⟩ : ∃ m, num.length = m + 1 := ⟨num.length - 1, by omega⟩
    rw [Finset.mul_sum]
    have hsummand : ∀ j ∈ Finset.range (num.length - 1),
        (s - z) * (hornerFrom num z (j + 1) * s ^ j)
          = (hornerFrom num z (j + 1) * s ^ (j + 1) - hornerFrom num z j * s ^ j)
            + num.getD j 0 * s ^ j := by
      intro j _
      have hrec := hornerFrom_getD num z j
      have h2 : z * hornerFrom num z (j + 1) = hornerFrom num z j - num.getD j 0 := by
        rw [hrec]
        ring
      calc (s - z) * (hornerFrom num z (j + 1) * s ^ j)
          = hornerFrom num z (j + 1) * s ^ (j + 1)
            - (z * hornerFrom num z (j + 1)) * s ^ j := by rw [pow_succ]; ring
        _ = _ := by rw [h2]; ring
    rw [Finset.sum_congr rfl hsummand, Finset.sum_add_distrib,
      Finset.sum_range_sub fun j => hornerFrom num z j * s ^ j]
    have hm1 : num.length - 1 = m := by omega
    rw [hm1]
    have hlast : hornerFrom num z m = num.getD m 0 := hornerFrom_last num z hm
    have heval : evalPoly num s
        = (∑ j ∈ Finset.range m, num.getD j 0 * s ^ j) + num.getD m 0 * s ^ m := by
      rw [evalPoly_eq_sum_getD, hm, Finset.sum_range_succ]
    rw [hlast, heval, hornerFrom_zero]
    ring

/-! The numerator of kzg_create_proof and KZG completeness. -/

theorem kzgNumerator_eval (coeffs : List F) (z x : F) :
    evalPoly (kzgNumerator coeffs z) x = evalPoly coeffs x - evalPoly coeffs z := by
  cases coeffs with
  | nil => simp [kzgNumerator, stripTrailingZeros]
  | cons c t =>
    show evalPoly (stripTrailingZeros ((c - evalPoly (c :: t) z) :: t)) x = _
    rw [evalPoly_strip, evalPoly_cons, evalPoly_cons, evalPoly_cons]
    ring

theorem kzgNumerator_root (coeffs : List F) (z : F) :
    evalPoly (kzgNumerator coeffs z) z = 0 := by
  rw [kzgNumerator_eval, sub_self]

theorem kzgNumerator_length_le (coeffs : List F) (z : F) :
    (kzgNumerator coeffs z).length ≤ coeffs.length := by
  cases coeffs with
  | nil => simp [kzgNumerator, stripTrailingZeros]
  | cons c t =>
    calc (kzgNumerator (c :: t) z).length
        ≤ ((c - evalPoly (c :: t) z) :: t).length := length_stripTrailingZeros_le _
      _ = (c :: t).length := by simp

theorem npd_quotient_length (num : List F) (z : F) :
    (naive_poly_division num [-z, 1]).1.length ≤ num.length := by
  rw [naive_poly_division_dvz]
  have hinv := npdInv_fold num z (num.length - 1) _ (le_refl _) (npdInv_init num z)
  calc (stripTrailingZeros _).length ≤ _ := length_stripTrailingZeros_le _
    _ = num.length := hinv.1

/-- Completeness of the KZG engine: for `1 ≤ d` (so the SRS holds the two
G2 powers the verifier indexes) and a coefficient vector of length at most
`d + 1`, verifying the genuine commitment, evaluation and proof succeeds. -/
theorem kzg_completeness (coeffs : List F) (z s : F) (d : ℕ)
    (hd : 1 ≤ d) (hlen : coeffs.length ≤ d + 1) :
    kzg_verify (kzg_commit coeffs (kzg_trusted_setup d s)) z (evalPoly coeffs z)
      (kzg_create_proof coeffs z (kzg_trusted_setup d s)) (kzg_trusted_setup d s)
      = some true := by
  obtain ⟨e, he⟩ : ∃ e, d = e + 1 := ⟨d - 1, by omega⟩
  subst he
  have hgoal : (kzg_commit coeffs (kzg_trusted_setup (e + 1) s) - 1 * evalPoly coeffs z) * 1
      = kzg_create_proof coeffs z (kzg_trusted_setup (e + 1) s) * (1 * s - 1 * z) := by
    rw [kzg_commit_trusted, List.take_of_length_le hlen, kzg_create_proof]
    rw [strip_divisor]
    rw [kzg_commit_trusted]
    rw [List.take_of_length_le (le_trans (npd_quotient_length _ z)
      (le_trans (kzgNumerator_length_le coeffs z) hlen))]
    rw [npd_quotient_eval]
    have hid := horner_identity (kzgNumerator coeffs z) z s
    rw [kzgNumerator_eval, kzgNumerator_root, sub_zero] at hid
    calc (evalPoly coeffs s - 1 * evalPoly coeffs z) * 1
        = (s - z) * ∑ j ∈ Finset.range ((kzgNumerator coeffs z).length - 1),
            hornerFrom (kzgNumerator coeffs z) z (j + 1) * s ^ j := by rw [hid]; ring
      _ = _ := by ring
  have hverify : kzg_verify (kzg_commit coeffs (kzg_trusted_setup (e + 1) s)) z
      (evalPoly coeffs z) (kzg_create_proof coeffs z (kzg_trusted_setup (e + 1) s))
      (kzg_trusted_setup (e + 1) s)
      = some (decide
          ((kzg_commit coeffs (kzg_trusted_setup (e + 1) s) - 1 * evalPoly coeffs z) * 1
            = kzg_create_proof coeffs z (kzg_trusted_setup (e + 1) s) * (1 * s - 1 * z))) :=
    rfl
  rw [hverify, hgoal]
  simp

/-! Facts about the IPA folding loop and the verifier's basis refold. -/

theorem ipaRounds_lengths (chal : F → F → F) :
    ∀ (k : ℕ) (fuel : ℕ) (a b g h : List F), a.length = 2 ^ k → k < fuel + 1 →
      (ipaRounds chal fuel a b g h).1.length = k
        ∧ (ipaRounds chal fuel a b g h).2.1.length = k := by
  intro k
  induction k with
  | zero =>
    intro fuel a b g h ha _
    have h1 : a.length ≤ 1 := by rw [ha]; norm_num
    cases fuel with
    | zero => exact ⟨rfl, rfl⟩
    | succ fuel => rw [ipaRounds, if_pos h1]; exact ⟨rfl, rfl⟩
  | succ k ih =>
    intro fuel a b g h ha hf
    match fuel, hf with
    | fuel + 1, hf =>
      have hpow : (2 : ℕ) ^ (k + 1) = 2 * 2 ^ k := by rw [pow_succ]; ring
      have hpos : 0 < (2 : ℕ) ^ k := Nat.pos_pow_of_pos _ (by norm_num)
      have hgt : ¬(a.length ≤ 1) := by omega
      rw [ipaRounds, if_neg hgt]
      constructor
      · simp only [List.length_cons]
        rw [(ih fuel _ _ _ _ ?_ ?_).1]
        · simp only [List.length_map, List.length_zip, List.length_take, List.length_drop]
          omega
        · omega
      · simp only [List.length_cons]
        rw [(ih fuel _ _ _ _ ?_ ?_).2]
        · simp only [List.length_map, List.length_zip, List.length_take, List.length_drop]
          omega
        · omega

theorem reconstructGens_nil (g h : List F) : reconstructGens [] g h = (g, h) := rfl

theorem reconstructGens_cons (c : F) (cs : List F) (g h : List F) :
    reconstructGens (c :: cs) g h
      = reconstructGens cs
          (((g.take (g.length / 2)).zip (g.drop (g.length / 2))).map
            fun p => p.1 + p.2 * c)
          (((h.take (g.length / 2)).zip (h.drop (g.length / 2))).map
            fun p => p.1 + p.2 * c) := rfl

theorem reconstructGens_lengths :
    ∀ (cs : List F) (g h : List F), h.length = g.length →
      (reconstructGens cs g h).1.length = g.length / 2 ^ cs.length
        ∧ (reconstructGens cs g h).2.length = g.length / 2 ^ cs.length := by
  intro cs
  induction cs with
  | nil => intro g h hgh; simp [reconstructGens_nil, hgh]
  | cons c cs ih =>
    intro g h hgh
    rw [reconstructGens_cons]
    have hg2 : (((g.take (g.length / 2)).zip (g.drop (g.length / 2))).map
        fun p => p.1 + p.2 * c).length = g.length / 2 := by
      simp only [List.length_map, List.length_zip, List.length_take, List.length_drop]
      omega
    have hh2 : (((h.take (g.length / 2)).zip (h.drop (g.length / 2))).map
        fun p => p.1 + p.2 * c).length = g.length / 2 := by
      simp only [List.length_map, List.length_zip, List.length_take, List.length_drop]
      omega
    have := ih _ _ (hh2.trans hg2.symm)
    rw [hg2] at this
    rw [this.1, this.2]
    have hdd : g.length / 2 / 2 ^ cs.length = g.length / 2 ^ (cs.length + 1) := by
      rw [Nat.div_div_eq_div_mul, pow_succ]
      ring_nf
    rw [List.length_cons, hdd]
    exact ⟨rfl, rfl⟩

theorem reconstructGens_self :
    ∀ (cs : List F) (g : List F),
      (reconstructGens cs g g).1 = (reconstructGens cs g g).2 := by
  intro cs
  induction cs with
  | nil => intro g; rfl
  | cons c cs ih =>
    intro g
    rw [reconstructGens_cons]
    exact ih _

theorem generate_g_vec_eight (hp : List ℕ → F) :
    generate_g_vec hp 8
      = [hp (gData 0), hp (gData 1), hp (gData 2), hp (gData 3),
         hp (gData 4), hp (gData 5), hp (gData 6), hp (gData 7)] := by
  simp [generate_g_vec, List.range_succ]

/-! Claim theorems. -/

/-- C4 (amended): neither `kzg_commit` nor `kzg_create_proof` can fail —
there is no `DegreeExceeded` error anywhere in kzg.rs.  `kzg_commit` zips
the coefficients with the `d + 1` SRS powers, silently dropping every
coefficient above the bound, so the commitment is the evaluation at `s` of
the truncated polynomial; when `deg(f) ≤ d` (the boundary `deg(f) = d`
included) this is the full sum of `f_i · G1_i`. -/
theorem c4_commit_truncates_instead_of_failing (coeffs : List F) (d : ℕ) (s : F) :
    (coeffs.length ≤ d + 1 →
      kzg_commit coeffs (kzg_trusted_setup d s) = evalPoly coeffs s)
    ∧ kzg_commit coeffs (kzg_trusted_setup d s) = evalPoly (coeffs.take (d + 1)) s := by
  constructor
  · intro h
    rw [kzg_commit_trusted, List.take_of_length_le h]
  · exact kzg_commit_trusted coeffs d s

/-- C4 counterexample: committing the polynomial `X^2` against an SRS of
bound `d = 1` does not fail with `DegreeExceeded` as the claim requires; it
returns the group identity (the `X^2` coefficient is silently dropped),
while the same polynomial against a large enough SRS commits to `s^2 = 4`. -/
theorem c4_counterexample :
    kzg_commit [0, 0, 1] (kzg_trusted_setup 1 (2 : ZMod 101)) = 0
      ∧ kzg_commit [0, 0, 1] (kzg_trusted_setup 2 (2 : ZMod 101)) = 4 := by
  constructor
  · decide
  · decide

/-- C4 witness: the boundary case `deg(f) = d` (two coefficients, `d = 1`)
commits to the full sum, and the over-degree case is the truncated sum. -/
theorem c4_witness :
    kzg_commit [2, 3] (kzg_trusted_setup 1 (5 : ZMod 101)) = evalPoly [2, 3] 5
      ∧ kzg_commit [0, 0, 1] (kzg_trusted_setup 1 (2 : ZMod 101))
          = evalPoly (([0, 0, 1] : List (ZMod 101)).take 2) 2 :=
  ⟨(c4_commit_truncates_instead_of_failing [2, 3] 1 5).1 (by norm_num),
   (c4_commit_truncates_instead_of_failing [0, 0, 1] 1 2).2⟩

/-- C5 (amended): the IPA `commit` performs no length check at all and
never fails — it returns the Pedersen sum `Σ coeffs_i · G_i` (truncating at
the shorter list) for every length, power of two or not.  The power-of-two
requirement exists only as the panicking `assert!` inside
`create_ipa_proof`, modelled here as `none`, not as an `InvalidLength`
error of the commitment operation. -/
theorem c5_commit_has_no_length_check (hp : List ℕ → F) (chal : F → F → F) :
    (∀ coeffs g_vec : List F,
      commit coeffs g_vec
        = ∑ i ∈ Finset.range (min coeffs.length g_vec.length),
            g_vec.getD i 0 * coeffs.getD i 0)
    ∧ ∀ (coeffs g_vec : List F) (x y : F), isPow2 coeffs.length = false →
        create_ipa_proof hp chal coeffs g_vec x y = none := by
  constructor
  · exact fun c g => commit_eq_sum c g
  · intro coeffs g_vec x y h
    simp only [create_ipa_proof]
    rw [if_neg (by rw [h]; exact Bool.false_ne_true)]

/-- C5 counterexample: committing a vector of length 3 (not a power of two)
does not fail with `InvalidLength` as the claim requires; it returns the
Pedersen sum `g_0 + g_1 + g_2 = 1 + 2 + 3 = 6` of the derived basis. -/
theorem c5_counterexample : commit [1, 1, 1] (generate_g_vec hpDemo 3) = 6 := by
  decide

/-- C5 witness: the Pedersen-sum form of `commit` at a concrete input, and
the `create_ipa_proof` assertion failure on a length-3 vector. -/
theorem c5_witness :
    commit [1, 2] [3, 4]
      = ∑ i ∈ Finset.range (min ([1, 2] : List (ZMod 101)).length
          ([3, 4] : List (ZMod 101)).length),
            ([3, 4] : List (ZMod 101)).getD i 0 * ([1, 2] : List (ZMod 101)).getD i 0
      ∧ create_ipa_proof hpDemo chalDemo [1, 1, 1] [0, 0, 0] 0 0 = none :=
  ⟨(c5_commit_has_no_length_check hpDemo chalDemo).1 [1, 2] [3, 4],
   (c5_commit_has_no_length_check hpDemo chalDemo).2 [1, 1, 1] [0, 0, 0] 0 0 (by decide)⟩

/-- C6: in `kzg_create_proof`, dividing the normalised numerator
`f(X) - f(z)` by `X - z` with `naive_poly_division` yields a remainder that
normalises to the zero polynomial, for every coefficient vector and every
point: the division identity the spec demands always holds, so the error
branch the spec describes (`DivisionRemainderNonzero`) is vacuous — the
code discards the remainder unchecked, which is unobservable precisely
because the remainder is always zero. -/
theorem c6_division_remainder_exactly_zero (coeffs : List F) (z : F) :
    (naive_poly_division (kzgNumerator coeffs z) (stripTrailingZeros [-z, 1])).2 = [] := by
  rw [strip_divisor]
  exact npd_remainder_zero _ z (kzgNumerator_root coeffs z)

/-- C7: for a coefficient vector of length `2^k` the IPA prover succeeds
and its proof carries exactly `k` pairs `(L_i, R_i)` — `k = log2 n` rounds,
zero when `n = 1`. -/
theorem c7_round_count (hp : List ℕ → F) (chal : F → F → F) (k : ℕ)
    (coeffs g_vec : List F) (x y : F) (hlen : coeffs.length = 2 ^ k) :
    ∃ p, create_ipa_proof hp chal coeffs g_vec x y = some p
      ∧ p.l_vec.length = k ∧ p.r_vec.length = k := by
  have hpow : isPow2 coeffs.length = true := by rw [hlen]; exact isPow2_two_pow k
  have hfuel : k < coeffs.length + 1 := by
    have := Nat.lt_two_pow k
    omega
  obtain ⟨h1, h2⟩ := ipaRounds_lengths chal k coeffs.length coeffs
    (generate_evaluation_vector x coeffs.length) g_vec (generate_g_vec hp coeffs.length)
    hlen hfuel
  refine ⟨⟨(ipaRounds chal coeffs.length coeffs (generate_evaluation_vector x coeffs.length)
      g_vec (generate_g_vec hp coeffs.length)).1,
    (ipaRounds chal coeffs.length coeffs (generate_evaluation_vector x coeffs.length)
      g_vec (generate_g_vec hp coeffs.length)).2.1,
    (ipaRounds chal coeffs.length coeffs (generate_evaluation_vector x coeffs.length)
      g_vec (generate_g_vec hp coeffs.length)).2.2.1,
    (ipaRounds chal coeffs.length coeffs (generate_evaluation_vector x coeffs.length)
      g_vec (generate_g_vec hp coeffs.length)).2.2.2⟩, ?_, h1, h2⟩
  simp only [create_ipa_proof]
  rw [if_pos hpow]

/-- C7 witness: a length-4 vector gives exactly 2 rounds. -/
theorem c7_witness :
    ∃ p, create_ipa_proof hpDemo chalDemo [1, 2, 3, 4] [5, 6, 7, 8] 2 0 = some p
      ∧ p.l_vec.length = 2 ∧ p.r_vec.length = 2 :=
  c7_round_count hpDemo chalDemo 2 [1, 2, 3, 4] [5, 6, 7, 8] 2 0 (by norm_num)

/-- C8 (amended): `kzg_trusted_setup` returns the two power sequences
`{s^i}` for `i = 0..d` in both groups, but it also stores the secret scalar
`s` itself as a public field of the returned `KZGSetup` structure, where it
is accessible to every caller — the struct has no production/test split. -/
theorem c8_srs_stores_secret (d : ℕ) (s : F) :
    (kzg_trusted_setup d s).s = s
      ∧ (kzg_trusted_setup d s).powers_of_g = (List.range (d + 1)).map (fun i => s ^ i)
      ∧ (kzg_trusted_setup d s).powers_of_h = (List.range (d + 1)).map (fun i => s ^ i) :=
  ⟨rfl, kzg_setup_powers_g d s, kzg_setup_powers_h d s⟩

/-- C8 counterexample: the secret drawn at setup is stored on — and
readable from — the returned SRS, contradicting the claim that `s` is not
stored on the structure. -/
theorem c8_counterexample : (kzg_trusted_setup 3 (7 : ZMod 101)).s = 7 := rfl

/-- C9 (amended): `generate_g_vec` is invoked both for the commitment basis
`G` and for the additional fold basis `H` (`create_ipa_proof` line 109,
`verify_ipa_proof` line 222), and the derivation hashes the single tag byte
`b"g"` (103) in both cases, so `H` is elementwise equal to `G` — not
independent of it; consequently the verifier's refolded bases
`G_final` and `H_final` coincide at every round. -/
theorem c9_h_basis_equals_g_basis (hp : List ℕ → F) (cs : List F) (n : ℕ) :
    generate_g_vec hp n = (List.range n).map (fun i => hp (103 :: leBytes8 i))
      ∧ (reconstructGens cs (generate_g_vec hp n) (generate_g_vec hp n)).1
          = (reconstructGens cs (generate_g_vec hp n) (generate_g_vec hp n)).2 :=
  ⟨rfl, reconstructGens_self cs _⟩

/-- C9 counterexample: at `n = 4`, the basis `G` (from `supersonic_commit`)
and the fold basis `H` (from `create_ipa_proof` / `verify_ipa_proof`) are
the same call `generate_g_vec 4` and evaluate to the same point list
`[1, 2, 3, 4]` (discrete logs), refuting "distinct, not elementwise equal";
after a fold round with challenge 2 the two reconstructed bases are still
identical. -/
theorem c9_counterexample :
    generate_g_vec hpDemo 4 = [1, 2, 3, 4]
      ∧ (reconstructGens [2] (generate_g_vec hpDemo 4) (generate_g_vec hpDemo 4)).1
          = (reconstructGens [2] (generate_g_vec hpDemo 4) (generate_g_vec hpDemo 4)).2 := by
  constructor
  · decide
  · decide

/-- C1: the equation `verify_ipa_proof` actually checks is
`a_final · G_final + b_final · H_final == C`, not the canonical folding
equation `C + Σ (c_i⁻¹ · L_i + c_i · R_i) == a_final · G_final +
b_final · H_final` of spec section 4.2: at a concrete instance (basis of
length 2 with discrete logs `[1, 2]`, commitment `0`, proof
`L = [0], R = [5], a_final = b_final = 1`, claimed value `1`, challenge 2,
refolded bases `G_final = H_final = 5`), the code rejects
(`some false`) although the canonical equation holds
(`0 + (2⁻¹·0 + 2·5) = 1·5 + 1·5`). -/
theorem c1_verifier_omits_commitment_folding :
    verify_ipa_proof hpDemo chalDemo (0 : ZMod 101) (generate_g_vec hpDemo 2) 0 1
        ⟨[0], [5], 1, 1⟩ = some false
      ∧ reconstructGens [2] (generate_g_vec hpDemo 2) (generate_g_vec hpDemo 2)
          = ([5], [5])
      ∧ canonicalFoldingEquation (0 : ZMod 101) [0] [5] [2] 1 1 5 5 := by
  refine ⟨by decide, by decide, ?_⟩
  show (0 : ZMod 101) + ([(2 : ZMod 101)⁻¹ * 0 + 2 * 5].sum) = 1 * 5 + 1 * 5
  simp
  decide

/-- The verifier's fold-and-check step of `verify_ipa_proof` returns a
boolean whenever both refolded bases are nonempty. -/
theorem verify_ipa_proof_isSome (hp : List ℕ → F) (chal : F → F → F)
    (C x y : F) (g_vec : List F) (p : IpaProof F)
    (hpow : isPow2 g_vec.length = true)
    (hne1 : (reconstructGens ((p.l_vec.zip p.r_vec).map fun q => chal q.1 q.2)
        g_vec (generate_g_vec hp g_vec.length)).1 ≠ [])
    (hne2 : (reconstructGens ((p.l_vec.zip p.r_vec).map fun q => chal q.1 q.2)
        g_vec (generate_g_vec hp g_vec.length)).2 ≠ []) :
    (verify_ipa_proof hp chal C g_vec x y p).isSome = true := by
  simp only [verify_ipa_proof]
  rw [if_pos hpow]
  obtain ⟨g0, gt, hg⟩ := List.exists_cons_of_ne_nil hne1
  obtain ⟨h0, ht, hh⟩ := List.exists_cons_of_ne_nil hne2
  rw [hg, hh]
  rfl

/-- C3 (amended): verification is total — returning `some` boolean — only
on well-shaped inputs: `kzg_verify` needs an SRS holding at least two G2
powers (it indexes `powers_of_h[1]`), and `supersonic_verify_proof` needs
the proof to carry at most 3 `(L, R)` pairs, because the verifier always
refolds a fixed 8-element basis and a fourth fold empties it, after which
`g_reconstructed[0]` panics.  Within those bounds every failed check is the
value `false`, never a panic. -/
theorem c3_verification_total_only_on_wellformed_inputs :
    (∀ (C z y W : F) (setup : KZGSetup F), 2 ≤ setup.powers_of_h.length →
      (kzg_verify C z y W setup).isSome = true)
    ∧ ∀ (hp : List ℕ → F) (chal : F → F → F) (proof : SupersonicProof F),
        proof.evaluation_proof.ipa_proof.l_vec.length ≤ 3
          ∨ proof.evaluation_proof.ipa_proof.r_vec.length ≤ 3 →
        (supersonic_verify_proof hp chal proof).isSome = true := by
  constructor
  · intro C z y W setup hlen
    obtain ⟨a, rest, hph⟩ : ∃ a rest, setup.powers_of_h = a :: rest := by
      cases hs : setup.powers_of_h with
      | nil => rw [hs] at hlen; simp at hlen
      | cons a rest => exact ⟨a, rest, rfl⟩
    obtain ⟨b, rest2, hr2⟩ : ∃ b rest2, rest = b :: rest2 := by
      cases hr : rest with
      | nil =>
        rw [hph, hr] at hlen
        simp at hlen
      | cons b rest2 => exact ⟨b, rest2, rfl⟩
    rw [kzg_verify, hph, hr2]
    rfl
  · intro hp chal proof hle
    simp only [supersonic_verify_proof]
    have hkate : verify_kate_witness proof.commitment proof.evaluation_proof.witness
        proof.point proof.value (generate_g_vec hp 8)
        = some (decide (proof.evaluation_proof.witness
            + hp (gData 0) * proof.value = proof.commitment)) := by
      rw [generate_g_vec_eight]
      rfl
    rw [hkate, Option.some_bind]
    have hchal : ((proof.evaluation_proof.ipa_proof.l_vec.zip
        proof.evaluation_proof.ipa_proof.r_vec).map fun q => chal q.1 q.2).length ≤ 3 := by
      rw [List.length_map, List.length_zip]
      omega
    have hlens := reconstructGens_lengths
      ((proof.evaluation_proof.ipa_proof.l_vec.zip
        proof.evaluation_proof.ipa_proof.r_vec).map fun q => chal q.1 q.2)
      (generate_g_vec hp 8) (generate_g_vec hp ((generate_g_vec hp 8).length))
      (by simp)
    have hposlen : 1 ≤ (8 : ℕ) / 2 ^ ((proof.evaluation_proof.ipa_proof.l_vec.zip
        proof.evaluation_proof.ipa_proof.r_vec).map fun q => chal q.1 q.2).length := by
      rw [Nat.one_le_div_iff (Nat.pos_pow_of_pos _ (by norm_num))]
      calc (2 : ℕ) ^ ((proof.evaluation_proof.ipa_proof.l_vec.zip
            proof.evaluation_proof.ipa_proof.r_vec).map fun q => chal q.1 q.2).length
          ≤ 2 ^ 3 := Nat.pow_le_pow_right (by norm_num) hchal
        _ = 8 := by norm_num
    have hipa := verify_ipa_proof_isSome hp chal proof.commitment proof.point proof.value
      (generate_g_vec hp 8) proof.evaluation_proof.ipa_proof
      (by rw [length_generate_g_vec]; decide)
      (by
        rw [← List.length_pos]
        rw [hlens.1, length_generate_g_vec]
        omega)
      (by
        rw [← List.length_pos]
        rw [hlens.2, length_generate_g_vec]
        omega)
    obtain ⟨bb, hbb⟩ := Option.isSome_iff_exists.mp hipa
    rw [hbb, Option.some_bind]
    rfl

/-- C3 counterexample: an adversarial Supersonic proof carrying four
`(L, R)` pairs drives the verifier's 8-element basis down to the empty
list, and `g_reconstructed[0]` panics — modelled as `none`, not a boolean
verdict, refuting "verification never raises on any input". -/
theorem c3_counterexample :
    supersonic_verify_proof hpDemo chalDemo
      ⟨0, ⟨0, ⟨[0, 0, 0, 0], [0, 0, 0, 0], 0, 0⟩⟩, 0, 0⟩ = none := by
  decide

/-- C3 witness: a degree-1 SRS satisfies the KZG shape bound, and a
round-free proof satisfies the Supersonic bound; both verifiers then
return a boolean. -/
theorem c3_witness :
    (kzg_verify (0 : ZMod 101) 0 0 0 (kzg_trusted_setup 1 2)).isSome = true
      ∧ (supersonic_verify_proof hpDemo chalDemo
          ⟨0, ⟨0, ⟨[], [], 0, 0⟩⟩, 0, 0⟩).isSome = true :=
  ⟨c3_verification_total_only_on_wellformed_inputs.1 0 0 0 0 (kzg_trusted_setup 1 2)
      (by decide),
   c3_verification_total_only_on_wellformed_inputs.2 hpDemo chalDemo
      ⟨0, ⟨0, ⟨[], [], 0, 0⟩⟩, 0, 0⟩ (Or.inl (by decide))⟩

/-- Changing the hash stand-in does not change `verify_ipa_proof` as long
as the reconstructed H basis it derives is unchanged. -/
theorem verify_ipa_proof_hp_congr (hp hp2 : List ℕ → F) (chal : F → F → F)
    (C : F) (g_vec : List F) (x y : F) (p : IpaProof F)
    (h : generate_g_vec hp g_vec.length = generate_g_vec hp2 g_vec.length) :
    verify_ipa_proof hp chal C g_vec x y p = verify_ipa_proof hp2 chal C g_vec x y p := by
  simp only [verify_ipa_proof]
  rw [h]

/-- C10: `supersonic_verify_proof` derives its generator basis with the
fixed length 8 (`generate_g_vec(8)`), independent of the coefficient-vector
length behind the commitment and of the proof's round count: its result
depends on the hash primitive only through the first eight derived
generators `gData 0 .. gData 7`, for every proof. -/
theorem c10_verifier_uses_fixed_eight_element_basis (hp hp2 : List ℕ → F)
    (chal : F → F → F) (proof : SupersonicProof F)
    (h : ∀ i, i < 8 → hp (gData i) = hp2 (gData i)) :
    supersonic_verify_proof hp chal proof = supersonic_verify_proof hp2 chal proof := by
  have hg : generate_g_vec hp 8 = generate_g_vec hp2 8 := generate_g_vec_congr 8 h
  simp only [supersonic_verify_proof]
  rw [verify_ipa_proof_hp_congr hp hp2 chal proof.commitment (generate_g_vec hp 8)
    proof.point proof.value proof.evaluation_proof.ipa_proof
    (by rw [length_generate_g_vec]; exact hg)]
  rw [hg]

/-- C10 witness: two hash stand-ins that agree on `gData 0 .. gData 7` but
differ above give the same verification verdict on a concrete proof. -/
theorem c10_witness :
    supersonic_verify_proof hpDemo chalDemo ⟨0, ⟨0, ⟨[], [], 0, 0⟩⟩, 0, 0⟩
      = supersonic_verify_proof hpDemo2 chalDemo ⟨0, ⟨0, ⟨[], [], 0, 0⟩⟩, 0, 0⟩ :=
  c10_verifier_uses_fixed_eight_element_basis hpDemo hpDemo2 chalDemo
    ⟨0, ⟨0, ⟨[], [], 0, 0⟩⟩, 0, 0⟩ (by decide)

/-- C2: completeness fails for the IPA/Supersonic engine.  For the constant
polynomial `[1]` (vector length 1, a power of two) at the point 0, the
genuine proof produced by `supersonic_create_proof` is rejected by
`supersonic_verify_proof` whenever the first derived generator is not the
identity (which holds for the real hash with overwhelming probability, and
for every nontrivial hash stand-in): the verifier's final equation
`a_final·G_0 + b_final·H_0 == C` evaluates to `g_0 + g_0 == g_0` because
the H basis duplicates the G basis and the commitment is never folded, so
verification returns `some false` on an honest proof.  (The KZG half of the
claim does hold: see `kzg_completeness`.) -/
theorem c2_supersonic_completeness_fails (hp : List ℕ → F) (chal : F → F → F)
    (h : hp (gData 0) ≠ 0) :
    (supersonic_create_proof hp chal [1] 0).bind (supersonic_verify_proof hp chal)
      = some false := by
  have hg1 : generate_g_vec hp 1 = [hp (gData 0)] := by
    simp [generate_g_vec, List.range_succ]
  have hy : evalPoly [(1 : F)] 0 = 1 := by simp
  have hcommit : commit [(1 : F)] [hp (gData 0)] = hp (gData 0) := by
    simp [commit]
  have hkw : create_kate_witness [(1 : F)] 0 1 [hp (gData 0)] = some 0 := by
    simp [create_kate_witness, commit]
  have hev : generate_evaluation_vector (0 : F) 1 = [1] := by
    simp [generate_evaluation_vector, List.range_succ]
  have hrounds : ipaRounds chal 1 [(1 : F)] (generate_evaluation_vector 0 1)
      [hp (gData 0)] (generate_g_vec hp 1) = ([], [], 1, 1) := by
    rw [hev]
    rfl
  have hipp : create_ipa_proof hp chal [(1 : F)] [hp (gData 0)] 0 1
      = some ⟨[], [], 1, 1⟩ := by
    simp only [create_ipa_proof, List.length_cons, List.length_nil, Nat.zero_add]
    rw [if_pos (by decide : isPow2 1 = true), hrounds]
  have hcreate : supersonic_create_proof hp chal [(1 : F)] 0
      = some ⟨hp (gData 0), ⟨0, ⟨[], [], 1, 1⟩⟩, 0, 1⟩ := by
    simp only [supersonic_create_proof, supersonic_commit, List.length_cons,
      List.length_nil, Nat.zero_add]
    rw [hg1, hy, hcommit]
    simp only [hkw, Option.some_bind, hipp]
  have hkate : verify_kate_witness (hp (gData 0)) 0 0 1 (generate_g_vec hp 8)
      = some true := by
    rw [generate_g_vec_eight]
    show some (decide ((0 : F) + hp (gData 0) * 1 = hp (gData 0))) = some true
    simp
  have hmsm : multiscalar_mul [(1 : F), 1] [hp (gData 0), hp (gData 0)]
      = hp (gData 0) + hp (gData 0) := by
    simp [multiscalar_mul]
  have hdec1 : decide (multiscalar_mul [(1 : F), 1] [hp (gData 0), hp (gData 0)]
      = hp (gData 0)) = false := by
    apply decide_eq_false
    rw [hmsm]
    intro hcon
    exact h (add_right_eq_self.mp hcon)
  have hipa : verify_ipa_proof hp chal (hp (gData 0)) (generate_g_vec hp 8) 0 1
      ⟨[], [], 1, 1⟩ = some false := by
    simp only [verify_ipa_proof, length_generate_g_vec]
    rw [if_pos (by decide : isPow2 8 = true)]
    rw [generate_g_vec_eight]
    show some (decide (multiscalar_mul [(1 : F), 1] [hp (gData 0), hp (gData 0)]
        = hp (gData 0)) && decide ((1 : F) * 1 = 1)) = some false
    rw [hdec1, Bool.false_and]
  rw [hcreate, Option.some_bind]
  simp only [supersonic_verify_proof]
  simp only [hkate, hipa, Option.some_bind]
  rfl

/-- C2 witness: the concrete failing instance with the demo hash
stand-ins. -/
theorem c2_witness :
    (supersonic_create_proof hpDemo chalDemo [1] 0).bind
      (supersonic_verify_proof hpDemo chalDemo) = some false :=
  c2_supersonic_completeness_fails hpDemo chalDemo (by decide)
